import Mathlib

/-!
Shallow embedding of the permission-gated hierarchical store from
`src/store.ts` (the richer, multi-segment variant) and, further below, of
the simpler flat-key variant found in the second source file.

Modelling conventions, all derived from the TypeScript source:

* JS primitive values (string / number / boolean / null) are `Prim`.
  Claims only exercise small integer literals, so numbers are `Int`.
* The raw content of a slot (what sits behind the installed get/set pair) is
  `Raw`: `undefined`, a primitive, a producer function, a nested store, or
  a plain permission-record object (the latter arises only when the
  bookkeeping field `permissionsByKey` gets shadowed by a slot; see
  `defineOp`).
* Producer functions are deep-embedded as `ProdExpr`: a producer either
  returns a constant or reads a primitive slot of the store it is bound
  to (`this`).  This captures "zero-argument callable, bound to the
  owning store, observing current values of other slots" without
  higher-order store-valued state.  Producers in this language are pure,
  matching the reading of the spec that producers observe state.
* The `define` helper of `write` installs a get/set pair over a **fresh**
  private symbol on every call (source lines 201-219), so after a
  `define` the visible value of the key is `undefined` until `set` runs;
  the model mirrors this by resetting the slot to `Raw.undefined`.
* JS property-descriptor lookups walk the instance and its prototype.
  The prototype contributes the class methods (data descriptors) and any
  `Restrict`-annotated accessors; they are modelled by the constant
  `protoMethodKeys` list and the per-store `protoAccessors` field.  The
  class-level permission tables installed by `Restrict` are the
  `protoPerms` field.  `new Store()` has empty annotation fields.
* Invoking a prototype *method* value during a delegation probe of
  the permission resolver (`getValueForKey` on a method name) either throws a
  TypeError or returns a non-store in JS; the model returns `Raw.undefined`
  for these keys, which leads to the same non-delegating control path.
* Errors thrown by `read`/`write` are `Except.error` with the exact
  source message; `write` additionally returns the (possibly partially
  mutated) store alongside the error, because the source mutates before
  recursing (lines 70 and 92 run before the recursive calls that may
  throw).
* Object-enumeration order: entry lists are produced in descriptor
  insertion order (prototype descriptors first, instance fields, then
  slots).  No claim below depends on enumeration order; statements use
  the association lookup `alookup`, which matches JS property lookup.
-/

inductive Permission where
  | r | w | rw | none
deriving DecidableEq, Repr

def permStr : Permission → String
  | .r => "r"
  | .w => "w"
  | .rw => "rw"
  | .none => "none"

inductive Prim where
  | str (s : String)
  | num (n : Int)
  | bool (b : Bool)
  | null
deriving DecidableEq, Repr

/-- Deep-embedded producer bodies: a zero-argument closure that either
returns a constant or reads a primitive-valued slot of the store it is
invoked on. -/
inductive ProdExpr where
  | constP (p : Prim)
  | constU
  | getPrim (k : String)
deriving DecidableEq, Repr

mutual
/-- State of a `Store` instance: the two data fields declared in the
class (source lines 37-38) plus the class-prototype annotation tables
contributed by `Restrict` (empty for plain `new Store()` instances). -/
inductive Store where
  | mk (defaultPolicy : Permission)
       (protoPerms : List (String × List Permission))
       (protoAccessors : List String)
       (permissionsByKey : List (String × List Permission))
       (slots : List (String × Raw)) : Store
/-- Raw content reachable through a property descriptor. -/
inductive Raw where
  | undefined : Raw
  | prim (p : Prim) : Raw
  | fn (f : ProdExpr) : Raw
  | store (s : Store) : Raw
  | pbObj (m : List (String × List Permission)) : Raw
end

def Store.defaultPolicy : Store → Permission
  | .mk d _ _ _ _ => d

def Store.protoPerms : Store → List (String × List Permission)
  | .mk _ pp _ _ _ => pp

def Store.protoAccessors : Store → List String
  | .mk _ _ pa _ _ => pa

def Store.permissionsByKey : Store → List (String × List Permission)
  | .mk _ _ _ pk _ => pk

def Store.slots : Store → List (String × Raw)
  | .mk _ _ _ _ sl => sl

def Store.setSlots : Store → List (String × Raw) → Store
  | .mk d pp pa pk _, sl => .mk d pp pa pk sl

def Store.setPermMap : Store → List (String × List Permission) → Store
  | .mk d pp pa _ sl, pk => .mk d pp pa pk sl

def Store.setDefaultPolicy : Store → Permission → Store
  | .mk _ pp pa pk sl, d => .mk d pp pa pk sl

/-- Model of `new Store()`: defaultPolicy rw, empty permission map, plain
`Store.prototype` (no annotations). -/
def freshStore : Store := .mk .rw [] [] [] []

/-- Association lookup; mirrors JS string-keyed property access on plain
record objects. -/
def alookup {α : Type} (k : String) : List (String × α) → Option α
  | [] => Option.none
  | (k2, v) :: rest => if k = k2 then some v else alookup k rest

/-- Association update; mirrors `{...old, [key]: v}` (existing key keeps
its position with the new value, new keys are appended). -/
def ainsert {α : Type} (k : String) (v : α) : List (String × α) → List (String × α)
  | [] => [(k, v)]
  | (k2, v2) :: rest => if k = k2 then (k, v) :: rest else (k2, v2) :: ainsert k v rest

def splitAux : List Char → List Char → List String
  | [], acc => [String.mk acc.reverse]
  | c :: cs, acc =>
    if c = ':' then String.mk acc.reverse :: splitAux cs []
    else splitAux cs (c :: acc)

/-- Model of `path.split(':')`. -/
def splitPath (s : String) : List String := splitAux s.data []

/-- Model of `segments.join(':')`. -/
def joinCols : List String → String
  | [] => ""
  | [x] => x
  | x :: xs => x ++ ":" ++ joinCols xs

/-- Own property names of `Store.prototype`: the constructor plus every
method of the class (TS `private` is erased at runtime, so the private
helpers are ordinary prototype methods). -/
def protoMethodKeys : List String :=
  ["constructor", "allowedToRead", "allowedToWrite", "read", "write",
   "writeEntries", "entries", "checkHasPermissionForKey", "hasKey",
   "getDescriptor", "getAllDescriptors", "getValueForKey",
   "resolveLazyValue", "getPermissionsForKey"]

/-- Model of `resolveValue` and `resolveLazyValue` (source lines 176-181, 226-231):
invoke a producer bound to the given store, pass anything else through.
The `Nat` component counts producer invocations performed by this call. -/
def resolveValueC (v : Raw) (context : Store) : Raw × Nat :=
  match v with
  | .fn f =>
    (match f with
     | .constP p => (.prim p, 1)
     | .constU => (.undefined, 1)
     | .getPrim k =>
       (match alookup k context.slots with
        | some (.prim p) => (.prim p, 1)
        | _ => (.undefined, 1)))
  | r => (r, 0)

def resolveValue (v : Raw) (context : Store) : Raw := (resolveValueC v context).fst

/-- The value read from `this.defaultPolicy`: the data field unless a
slot accessor named "defaultPolicy" has shadowed it (a `write` to that
literal key replaces the field with an accessor, source line 209). -/
def dpRaw (s : Store) : Raw :=
  match alookup "defaultPolicy" s.slots with
  | some r => r
  | Option.none => .prim (.str (permStr s.defaultPolicy))

/-- JS `===` comparison of a raw value against a string literal. -/
def rawStrEq (r : Raw) (t : String) : Bool :=
  match r with
  | .prim (.str u) => u = t
  | _ => false

def protoPermLookup (s : Store) (k : String) : List Permission :=
  match alookup k s.protoPerms with
  | some ps => ps
  | Option.none => []

/-- Model of `getPermissionsForKey` (source lines 183-198): consult the instance
map (through the shadowing accessor when a slot named "permissionsByKey"
exists; a shadow holding anything but a permission record never yields
an `Array.isArray` hit), then walk the prototype tables. -/
def getPermissionsForKey (s : Store) (k : String) : List Permission :=
  match alookup "permissionsByKey" s.slots with
  | some (.pbObj m) =>
    (match alookup k m with
     | some ps => ps
     | Option.none => protoPermLookup s k)
  | some _ => protoPermLookup s k
  | Option.none =>
    match alookup k s.permissionsByKey with
    | some ps => ps
    | Option.none => protoPermLookup s k

/-- Boolean string-list membership (JS `Array.includes` on names). -/
def scontains : List String → String → Bool
  | [], _ => false
  | x :: xs, k => if x = k then true else scontains xs k

/-- Model of `hasKey` via `getDescriptor` (source lines 139-154): some descriptor
for the key exists on the instance (slot accessors, the two data
fields) or on the prototype chain (annotated accessors, class methods). -/
def hasKey (s : Store) (k : String) : Bool :=
  (alookup k s.slots).isSome
  || k = "defaultPolicy"
  || k = "permissionsByKey"
  || scontains s.protoAccessors k
  || scontains protoMethodKeys k

/-- The non-delegating tail of `checkHasPermissionForKey` (source lines
127-136). -/
def localCheck (s : Store) (key : String) (permissions : List Permission) : Bool :=
  let keyPerms := getPermissionsForKey s key
  if hasKey s key && decide (0 < keyPerms.length) then
    keyPerms.any (fun kp => permissions.contains kp)
  else if rawStrEq (dpRaw s) "none" then false
  else permissions.any (fun p => rawStrEq (dpRaw s) (permStr p))

/-- Model of `getValueForKey` before lazy resolution (source lines 163-175):
descriptor getter for slots, direct property access for the data
fields; method names resolve to functions whose accidental invocation
by `resolveLazyValue` never yields a store (see the file comment), so
they are modelled as `undefined`. -/
def getValue (s : Store) (k : String) : Raw :=
  match alookup k s.slots with
  | some r => r
  | Option.none =>
    if k = "defaultPolicy" then .prim (.str (permStr s.defaultPolicy))
    else if k = "permissionsByKey" then .pbObj s.permissionsByKey
    else .undefined

def getValueForKeyC (s : Store) (k : String) : Raw × Nat :=
  resolveValueC (getValue s k) s

/-- Model of `checkHasPermissionForKey` (source lines 117-137) on the segment
list of the key; multi-segment keys whose first segment resolves to a
nested store delegate the whole check to the child.  The `Nat` counts
producer invocations made by delegation probes. -/
def checkSegsC : Store → List String → List Permission → Bool × Nat
  | s, first :: h2 :: t2, permissions =>
    let vc := getValueForKeyC s first
    (match vc.fst with
     | .store child =>
       let bc := checkSegsC child (h2 :: t2) permissions
       (bc.fst, vc.snd + bc.snd)
     | _ => (localCheck s (joinCols (first :: h2 :: t2)) permissions, vc.snd))
  | s, segs, permissions => (localCheck s (joinCols segs) permissions, 0)

def checkHasPermissionForKey (s : Store) (key : String) (permissions : List Permission) : Bool :=
  (checkSegsC s (splitPath key) permissions).fst

def allowedToRead (s : Store) (key : String) : Bool :=
  checkHasPermissionForKey s key [.r, .rw]

def allowedToWrite (s : Store) (key : String) : Bool :=
  checkHasPermissionForKey s key [.w, .rw]

/-- The raw value produced by `descriptor?.get?.call(this)` in `read`
and `write` (source lines 54, 85): only instance slot accessors have a
getter; data descriptors (fields, methods) and missing descriptors give
`undefined` through the optional chain. -/
def rawAt (s : Store) (k : String) : Raw :=
  match alookup k s.slots with
  | some r => r
  | Option.none => .undefined

/-- Model of `read` (source lines 48-63) on the segment list; each recursion
level re-checks the permission for the joined remaining path, exactly
as the recursive read of the joined remaining segments re-enters the
public method.  Result carries the producer-invocation count. -/
def readSegs : Store → List String → Except String (Raw × Nat)
  | s, [] =>
    if (checkSegsC s [] [Permission.r, .rw]).fst then .ok (.undefined, 0)
    else .error ("Not allowed to read for path " ++ joinCols [])
  | s, [k] =>
    let chk := checkSegsC s [k] [Permission.r, .rw]
    if chk.fst then
      let rv := resolveValueC (rawAt s k) s
      .ok (rv.fst, chk.snd + rv.snd)
    else .error ("Not allowed to read for path " ++ joinCols [k])
  | s, k :: h2 :: t2 =>
    let chk := checkSegsC s (k :: h2 :: t2) [Permission.r, .rw]
    if chk.fst then
      let rv := resolveValueC (rawAt s k) s
      match rv.fst with
      | .store child =>
        (match readSegs child (h2 :: t2) with
         | .ok res => .ok (res.fst, chk.snd + rv.snd + res.snd)
         | .error e => .error e)
      | v => .ok (v, chk.snd + rv.snd)
    else .error ("Not allowed to read for path " ++ joinCols (k :: h2 :: t2))

def readFn (s : Store) (path : String) : Except String (Raw × Nat) :=
  readSegs s (splitPath path)

def readVal (s : Store) (path : String) : Except String Raw :=
  (readFn s path).map Prod.fst

/-- Spread of the current `this.permissionsByKey` value when that
property has been shadowed by a slot accessor.  Only permission-record
objects contribute `Array.isArray` entries; spreading any other raw
value contributes no entry that the permission resolver can observe, so
those spreads are modelled as empty (observationally equal for every
operation in this file). -/
def spreadPerms : Raw → List (String × List Permission)
  | .pbObj m => m
  | _ => []

/-- Model of `define` (source lines 201-219) as invoked from `write` line 70:
record the permission list under the key in `permissionsByKey` (through
the shadowing accessor when one exists), then install a fresh
symbol-backed accessor for the key, whose visible value is `undefined`
until the subsequent `set`. -/
def defineOp (s : Store) (k : String) (ps : List Permission) : Store :=
  let s1 :=
    match alookup "permissionsByKey" s.slots with
    | some r =>
      s.setSlots (ainsert "permissionsByKey" (.pbObj (ainsert k ps (spreadPerms r))) s.slots)
    | Option.none => s.setPermMap (ainsert k ps s.permissionsByKey)
  s1.setSlots (ainsert k .undefined s1.slots)

def setSlot (s : Store) (k : String) (r : Raw) : Store :=
  s.setSlots (ainsert k r s.slots)

/-- Values acceptable to `write` (`StoreValue`): primitives, undefined,
producers, stores, structured objects and arrays, plus the plain
permission-record objects that internal state can leak back in. -/
inductive SVal where
  | prim (p : Prim)
  | undefined
  | fn (f : ProdExpr)
  | store (s : Store)
  | obj (fields : List (String × SVal))
  | arr (elems : List SVal)
  | permMapV (m : List (String × List Permission))

/-- The typeof-object test of source line 73 (an object-typed value
that is not the null literal): true for objects,
arrays, stores and permission records; false for null, the other
primitives, undefined and functions. -/
def isObjectType : SVal → Bool
  | .obj _ => true
  | .arr _ => true
  | .store _ => true
  | .permMapV _ => true
  | _ => false

/-- The raw content stored by `descriptor.set` when `write` takes the
store-as-is branch (never reached for object-typed values). -/
def svalAsRaw : SVal → Raw
  | .prim p => .prim p
  | .undefined => .undefined
  | .fn f => .fn f
  | .store c => .store c
  | .obj _ => .undefined
  | .arr _ => .undefined
  | .permMapV m => .pbObj m

def rawToSVal : Raw → SVal
  | .undefined => .undefined
  | .prim p => .prim p
  | .fn f => .fn f
  | .store c => .store c
  | .pbObj m => .permMapV m

def idxStrings : Nat → List SVal → List (String × SVal)
  | _, [] => []
  | i, v :: rest => (toString i, v) :: idxStrings (i + 1) rest

/-- Model of `Object.entries(value)`: object fields in insertion order, array
elements under their decimal index strings, and for a store instance
its own enumerable properties (the two data fields unless shadowed,
then the slot accessors). -/
def entriesOfSVal : SVal → List (String × SVal)
  | .obj fields => fields
  | .arr elems => idxStrings 0 elems
  | .permMapV m => m.map (fun kv => (kv.fst, SVal.arr (kv.snd.map (fun p => SVal.prim (.str (permStr p))))))
  | .store c =>
    (if (alookup "defaultPolicy" c.slots).isSome then []
     else [("defaultPolicy", SVal.prim (.str (permStr c.defaultPolicy)))])
    ++ (if (alookup "permissionsByKey" c.slots).isSome then []
        else [("permissionsByKey", SVal.permMapV c.permissionsByKey)])
    ++ c.slots.map (fun kv => (kv.fst, rawToSVal kv.snd))
  | _ => []

inductive WErr where
  | permDenied (msg : String)
  | fuelOut
deriving DecidableEq, Repr

/-- Model of `writeEntries` (source lines 97-101) parameterised by the write
implementation: `Object.entries(entries).forEach(([k, v]) => this.write(k, v))`;
an exception aborts the iteration with earlier writes applied. -/
def writeGo (rec : Store → String → SVal → Store × Except WErr Raw) :
    Store → List (String × SVal) → Store × Except WErr Unit
  | s, [] => (s, .ok ())
  | s, (k, v) :: rest =>
    match rec s k v with
    | (s1, .ok _) => writeGo rec s1 rest
    | (s1, .error e) => (s1, .error e)

/-- Model of `write` (source lines 65-95), fuel-indexed for the recursion into
bulk-populated child stores and tail paths.  Returns the resulting
parent store together with the returned value or the thrown error; on
an error the store reflects every mutation performed before the throw
(the `define` of line 70 and, for multi-segment paths, the `set` of
line 92 precede the recursive calls).  Note that because `define`
re-installs a fresh private symbol, the `descriptor.get` of line 85
always yields `undefined`, so a multi-segment write always replaces the
slot of the first segment with a brand-new store (lines 87-90 are dead). -/
def writeF : Nat → Store → String → SVal → Store × Except WErr Raw
  | 0, s, _, _ => (s, .error .fuelOut)
  | n + 1, s, path, value =>
    if (checkSegsC s (splitPath path) [Permission.w, .rw]).fst then
      match splitPath path with
      | [] => (s, .error .fuelOut)
      | [k] =>
        let s1 := defineOp s k (getPermissionsForKey s k)
        if isObjectType value then
          match writeGo (writeF n) freshStore (entriesOfSVal value) with
          | (c, .ok _) => (setSlot s1 k (.store c), .ok (.store c))
          | (_, .error e) => (s1, .error e)
        else
          (setSlot s1 k (svalAsRaw value), .ok (svalAsRaw value))
      | first :: h2 :: t2 =>
        let s1 := defineOp s first (getPermissionsForKey s first)
        match writeF n freshStore (joinCols (h2 :: t2)) value with
        | (c1, .ok _) => (setSlot s1 first (.store c1), .ok (.store c1))
        | (c1, .error e) => (setSlot s1 first (.store c1), .error e)
    else
      (s, .error (.permDenied ("Not allowed to write for path " ++ path)))

def writeEntriesF (n : Nat) (s : Store) (entries : List (String × SVal)) :
    Store × Except WErr Unit :=
  writeGo (writeF n) s entries

/-- Values appearing in the object returned by `entries()`: raw slot
contents included under read permission (producers appear as the
function itself), recursively collected nested-store entries, and the
class methods found among the enumerated descriptors. -/
inductive EntryVal where
  | raw (r : Raw)
  | sub (l : List (String × EntryVal))
  | methodV (name : String)

/-- A descriptor enumerated by `getAllDescriptors` (source lines
156-161): an instance slot accessor, a prototype annotation accessor, a
prototype method, or one of the two instance data fields. -/
inductive DescSrc where
  | accD (r : Raw)
  | protoAccD
  | methodD
  | dpD
  | pbkD

inductive DescVal where
  | dvRaw (r : Raw)
  | dvMethod

/-- The null-coalescing applied by source line 107 to every accessor
descriptor: `descriptor.get?.call(this) ?? descriptor.value` maps the
raw contents null and undefined to undefined (the accessor descriptor
has no `value` field) and passes every other raw value through. -/
def coalesceNull : Raw → Raw
  | .undefined => .undefined
  | .prim .null => .undefined
  | r => r

/-- The value `descriptor.get?.call(this) ?? descriptor.value` for one
descriptor: slot getters yield the raw content, with `null` and
`undefined` falling through `??` to the (absent) `value` of an accessor
descriptor; data descriptors yield their value. -/
def descView (s : Store) : DescSrc → DescVal
  | .accD .undefined => .dvRaw .undefined
  | .accD (.prim .null) => .dvRaw .undefined
  | .accD r => .dvRaw r
  | .protoAccD => .dvRaw .undefined
  | .methodD => .dvMethod
  | .dpD => .dvRaw (.prim (.str (permStr s.defaultPolicy)))
  | .pbkD => .dvRaw (.pbObj s.permissionsByKey)

/-- The merged descriptor map
`{...descriptors(prototype), ...descriptors(this)}`: instance
descriptors override prototype ones of the same name, so prototype
entries shadowed by an own key are dropped. -/
def allDescs (s : Store) : List (String × DescSrc) :=
  let ownKeys := "defaultPolicy" :: "permissionsByKey" :: s.slots.map Prod.fst
  (protoMethodKeys.filterMap (fun k =>
     if scontains ownKeys k then Option.none else some (k, DescSrc.methodD)))
  ++ (s.protoAccessors.filterMap (fun k =>
     if scontains ownKeys k then Option.none else some (k, DescSrc.protoAccD)))
  ++ (if (alookup "defaultPolicy" s.slots).isSome then []
      else [("defaultPolicy", DescSrc.dpD)])
  ++ (if (alookup "permissionsByKey" s.slots).isSome then []
      else [("permissionsByKey", DescSrc.pbkD)])
  ++ s.slots.map (fun kv => (kv.fst, DescSrc.accD kv.snd))

/-- The loop body of `entries()` (source lines 106-113) parameterised by
the recursive call used for nested stores: store-valued descriptors are
included unconditionally via the recursive `entries()`, every other
value only under `allowedToRead`. -/
def entriesGo (rec : Store → Option (List (String × EntryVal))) (s : Store) :
    List (String × DescSrc) → Option (List (String × EntryVal))
  | [] => some []
  | (k, d) :: rest =>
    match descView s d with
    | .dvRaw (.store c) =>
      (match rec c with
       | some lc =>
         (match entriesGo rec s rest with
          | some lr => some ((k, .sub lc) :: lr)
          | Option.none => Option.none)
       | Option.none => Option.none)
    | .dvRaw v =>
      (match entriesGo rec s rest with
       | some lr => some (if allowedToRead s k then (k, .raw v) :: lr else lr)
       | Option.none => Option.none)
    | .dvMethod =>
      (match entriesGo rec s rest with
       | some lr => some (if allowedToRead s k then (k, .methodV k) :: lr else lr)
       | Option.none => Option.none)

/-- Model of `entries()` (source lines 103-115), fuel-indexed on nesting depth. -/
def entriesF : Nat → Store → Option (List (String × EntryVal))
  | 0, _ => Option.none
  | n + 1, s => entriesGo (entriesF n) s (allDescs s)

/-- One public operation of the store API, for stating state-change
invariants uniformly. -/
inductive Op where
  | readOp (path : String)
  | writeOp (path : String) (v : SVal)
  | writeEntriesOp (e : List (String × SVal))
  | entriesOp

/-- The store state after an operation.  `read` and `entries` perform
no mutation in the source (producers in the embedded language are
pure), so they return the state unchanged. -/
def applyOp (fuel : Nat) (s : Store) : Op → Store
  | .readOp _ => s
  | .entriesOp => s
  | .writeOp p v => (writeF fuel s p v).fst
  | .writeEntriesOp e => (writeEntriesF fuel s e).fst

/-- The first path segments that an operation writes at top level (the
keys passed to `define`). -/
def headsOf : Op → List String
  | .readOp _ => []
  | .entriesOp => []
  | .writeOp p _ => [(splitPath p).headD ""]
  | .writeEntriesOp e => e.map (fun kv => (splitPath kv.fst).headD "")

/-- State of the `Store` of the simpler variant (second source file): its
`Restrict` decorator installs accessors on the class prototype whose
setter records the permission list of the annotation on every assignment,
and the class never installs instance-level properties.  `protoVals`
holds the per-instance values living behind the shared private
symbols.  Values are stored as-is (this variant performs no
object-to-store conversion). -/
structure SStore where
  defaultPolicy : Permission
  permissionsByKey : List (String × List Permission)
  protoAccessors : List String
  protoAnnots : List (String × List Permission)
  protoVals : List (String × SVal)

def sFresh : SStore := ⟨.rw, [], [], [], []⟩

/-- Own property names of the prototype of the simple variant. -/
def sProtoMethodKeys : List String :=
  ["constructor", "allowedToRead", "allowedToWrite", "read", "write",
   "writeEntries", "entries", "checkHasPermissionForKey", "hasKey",
   "getAllDescriptors", "getDescriptor"]

/-- Simple variant `hasKey`: only the own descriptors of the prototype are
consulted (methods and annotated accessors). -/
def sHasKey (s : SStore) (k : String) : Bool :=
  scontains sProtoMethodKeys k || scontains s.protoAccessors k

/-- Simple variant `checkHasPermissionForKey`: no path splitting; note
that `keyPerms` is an array and hence always truthy, so a key with a
prototype descriptor is decided purely by the (possibly empty)
intersection with its recorded permissions. -/
def sCheck (s : SStore) (key : String) (permissions : List Permission) : Bool :=
  let keyPerms := (alookup key s.permissionsByKey).getD []
  if sHasKey s key then keyPerms.any (fun kp => permissions.contains kp)
  else if s.defaultPolicy = Permission.none then false
  else permissions.contains s.defaultPolicy

def sAllowedToRead (s : SStore) (key : String) : Bool :=
  sCheck s key [.r, .rw]

def sAllowedToWrite (s : SStore) (key : String) : Bool :=
  sCheck s key [.w, .rw]

/-- The value behind `descriptor?.get?.call(this)` in the simple
variant: annotated accessors yield the stored value (or `undefined`),
method data descriptors and missing descriptors yield `undefined`. -/
def sGetVal (s : SStore) (path : String) : SVal :=
  if scontains s.protoAccessors path then
    match alookup path s.protoVals with
    | some v => v
    | Option.none => .undefined
  else .undefined

/-- Simple variant `read`: the whole path string is one flat key. -/
def sRead (s : SStore) (path : String) : Except String SVal :=
  if sAllowedToRead s path then .ok (sGetVal s path)
  else .error ("Not allowed to read for path " ++ path)

/-- Simple variant `write`: the whole path string is one flat key; the
value is stored as-is through the annotated setter (which re-records
the recorded annotation list), and a key with no prototype
descriptor is silently not stored. -/
def sWrite (s : SStore) (path : String) (value : SVal) : SStore × Except String SVal :=
  if sAllowedToWrite s path then
    if scontains s.protoAccessors path then
      ({ s with
          protoVals := ainsert path value s.protoVals,
          permissionsByKey :=
            ainsert path ((alookup path s.protoAnnots).getD []) s.permissionsByKey },
       .ok value)
    else (s, .ok .undefined)
  else (s, .error ("Not allowed to write for path " ++ path))

/-- A common observation type for comparing the outcome of a read in
the two variants as JS values. -/
inductive Obs where
  | oUndefined
  | oNull
  | oStr (t : String)
  | oNum (n : Int)
  | oBool (b : Bool)
  | oStoreRef
  | oFnRef
  | oObjRef
  | oErr (msg : String)
deriving DecidableEq, Repr

def obsOfPrim : Prim → Obs
  | .str t => .oStr t
  | .num n => .oNum n
  | .bool b => .oBool b
  | .null => .oNull

def obsOfRaw : Raw → Obs
  | .undefined => .oUndefined
  | .prim p => obsOfPrim p
  | .fn _ => .oFnRef
  | .store _ => .oStoreRef
  | .pbObj _ => .oObjRef

def obsOfSVal : SVal → Obs
  | .undefined => .oUndefined
  | .prim p => obsOfPrim p
  | .fn _ => .oFnRef
  | .store _ => .oStoreRef
  | .obj _ => .oObjRef
  | .arr _ => .oObjRef
  | .permMapV _ => .oObjRef

def obsOfRead : Except String Raw → Obs
  | .ok r => obsOfRaw r
  | .error e => .oErr e

def obsOfSRead : Except String SVal → Obs
  | .ok v => obsOfSVal v
  | .error e => .oErr e

/-- The nested store produced by `new Store(); s.write("a:b", 5)`. -/
def abChild : Store := .mk .rw [] [] [("b", [])] [("b", .prim (.num 5))]

/-- The outer store produced by `new Store(); s.write("a:b", 5)`. -/
def abParent : Store := .mk .rw [] [] [("a", [])] [("a", .store abChild)]

/-- Reachable state: `const s = new Store(); s.write("a:b", 5);
s.defaultPolicy = "none"` (the field is public and mutable). -/
def noneStoreAB : Store := abParent.setDefaultPolicy .none

/-- A fresh store whose policy was set to "none". -/
def noneFresh : Store := freshStore.setDefaultPolicy .none

/-- The nested store produced by `new Store().write("k", [10, 20])`. -/
def c1Child : Store :=
  .mk .rw [] [] [("0", []), ("1", [])] [("0", .prim (.num 10)), ("1", .prim (.num 20))]

/-- Reachable state: `const s = new Store(); s.write("k", () => 5)`
(its permission record is the empty list from the first write). -/
def c2Store : Store := .mk .rw [] [] [("k", [])] [("k", .fn (.constP (.num 5)))]

/-- A store holding a nested store under a write-only key (reachable
through an ahead-of-time annotation with the list [w] followed by a
first write). -/
def c2StoreB : Store := .mk .rw [] [] [("k", [.w])] [("k", .store abChild)]

/-- A store with a producer at "k" reading the primitive slot "x". -/
def c6Store : Store :=
  .mk .rw [] [] [("k", []), ("x", [])] [("k", .fn (.getPrim "x")), ("x", .prim (.num 1))]

/-- The same store after the underlying data of the producer changed. -/
def c6StoreUpd : Store := setSlot c6Store "x" (.prim (.num 2))

/-- Reachable state: a subclass annotates "secret" ahead of time with
the permission list [w] (the prototype accessor and prototype table),
and `write("secret", 1)` — allowed, since [w] meets the requested
write set — copies the resolved list [w] into the instance map and
stores the value.  The list recorded on the instance is backed by the
same list in the prototype table. -/
def secretStore : Store :=
  .mk .rw [("secret", [.w])] ["secret"] [("secret", [.w])] [("secret", .prim (.num 1))]

/-- Reachable state: `new Store(); s.write("k", null)`. -/
def nullStore : Store := .mk .rw [] [] [("k", [])] [("k", .prim .null)]

/-- A write-only producer slot (reachable through an ahead-of-time
annotation with the list [w] followed by a first write of a producer). -/
def c2StoreC : Store :=
  .mk .rw [("k", [.w])] ["k"] [("k", [.w])] [("k", .fn (.constP (.num 5)))]

/-- The sublist of entries carrying a given key (used to state that a
key occurs exactly once in a descriptor list). -/
def occsOf {α : Type} (k : String) : List (String × α) → List (String × α)
  | [] => []
  | (k2, v) :: rest => if k2 = k then (k2, v) :: occsOf k rest else occsOf k rest

theorem alookup_ainsert_self {α : Type} (k : String) (v : α) (l : List (String × α)) :
    alookup k (ainsert k v l) = some v := by
  induction l with
  | nil => simp [alookup, ainsert]
  | cons hd tl ih =>
    by_cases h : k = hd.fst
    · simp [alookup, ainsert, h]
    · simp [alookup, ainsert, h, ih]

theorem alookup_ainsert_ne {α : Type} {k k2 : String} (h : k ≠ k2) (v : α)
    (l : List (String × α)) : alookup k (ainsert k2 v l) = alookup k l := by
  induction l with
  | nil => simp [alookup, ainsert, h]
  | cons hd tl ih =>
    by_cases h2 : k2 = hd.fst
    · have h3 : k ≠ hd.fst := fun hk => absurd (hk.trans h2.symm) h
      simp [alookup, ainsert, h2, h3]
    · by_cases h3 : k = hd.fst
      · simp [alookup, ainsert, h2, h3]
      · simp [alookup, ainsert, h2, h3, ih]

theorem slots_setSlots (s : Store) (sl : List (String × Raw)) : (s.setSlots sl).slots = sl := by
  cases s; rfl

theorem permMap_setSlots (s : Store) (sl : List (String × Raw)) :
    (s.setSlots sl).permissionsByKey = s.permissionsByKey := by
  cases s; rfl

theorem protoPerms_setSlots (s : Store) (sl : List (String × Raw)) :
    (s.setSlots sl).protoPerms = s.protoPerms := by
  cases s; rfl

theorem slots_setPermMap (s : Store) (pk : List (String × List Permission)) :
    (s.setPermMap pk).slots = s.slots := by
  cases s; rfl

theorem permMap_setPermMap (s : Store) (pk : List (String × List Permission)) :
    (s.setPermMap pk).permissionsByKey = pk := by
  cases s; rfl

theorem protoPerms_setPermMap (s : Store) (pk : List (String × List Permission)) :
    (s.setPermMap pk).protoPerms = s.protoPerms := by
  cases s; rfl

theorem protoPermLookup_setSlots (s : Store) (sl : List (String × Raw)) (k : String) :
    protoPermLookup (s.setSlots sl) k = protoPermLookup s k := by
  simp [protoPermLookup, protoPerms_setSlots]

theorem protoPermLookup_setPermMap (s : Store) (pk : List (String × List Permission)) (k : String) :
    protoPermLookup (s.setPermMap pk) k = protoPermLookup s k := by
  simp [protoPermLookup, protoPerms_setPermMap]

theorem gpk_setSlot (s : Store) (h : String) (r : Raw) (k : String)
    (hne : h ≠ "permissionsByKey") :
    getPermissionsForKey (setSlot s h r) k = getPermissionsForKey s k := by
  simp only [setSlot, getPermissionsForKey, slots_setSlots, permMap_setSlots,
    protoPermLookup_setSlots, alookup_ainsert_ne (Ne.symm hne)]

theorem gpk_defineOp (s : Store) (h k : String) (hne : h ≠ "permissionsByKey") :
    getPermissionsForKey (defineOp s h (getPermissionsForKey s h)) k
      = getPermissionsForKey s k := by
  cases hpbk : alookup "permissionsByKey" s.slots with
  | none =>
    simp only [defineOp, hpbk, getPermissionsForKey, slots_setSlots, slots_setPermMap,
      permMap_setSlots, permMap_setPermMap, protoPermLookup_setSlots, protoPermLookup_setPermMap,
      alookup_ainsert_ne (Ne.symm hne), hpbk]
    by_cases hk : k = h
    · subst hk
      simp only [alookup_ainsert_self]
    · simp only [alookup_ainsert_ne hk]
  | some r =>
    simp only [defineOp, hpbk, getPermissionsForKey, slots_setSlots,
      permMap_setSlots, protoPermLookup_setSlots,
      alookup_ainsert_ne (Ne.symm hne), alookup_ainsert_self, hpbk]
    cases r <;> simp only [spreadPerms] <;> by_cases hk : k = h
    all_goals first
      | (subst hk; simp only [alookup_ainsert_self])
      | simp [alookup, ainsert, alookup_ainsert_ne hk, hk]

theorem gpk_write_parts (s : Store) (k0 k : String) (hne : k0 ≠ "permissionsByKey") (r : Raw) :
    getPermissionsForKey (setSlot (defineOp s k0 (getPermissionsForKey s k0)) k0 r) k
      = getPermissionsForKey s k := by
  rw [gpk_setSlot _ _ _ _ hne, gpk_defineOp _ _ _ hne]

theorem gpk_writeF (n : Nat) (s : Store) (p : String) (v : SVal) (k : String)
    (hhead : (splitPath p).headD "" ≠ "permissionsByKey") :
    getPermissionsForKey (writeF n s p v).fst k = getPermissionsForKey s k := by
  cases n with
  | zero => rfl
  | succ m =>
    simp only [writeF]
    by_cases hchk : (checkSegsC s (splitPath p) [Permission.w, .rw]).fst = true
    · cases hsp : splitPath p with
      | nil =>
        rw [hsp] at hchk
        simp [hsp, hchk]
      | cons k0 rest =>
        rw [hsp] at hchk
        have hk0 : k0 ≠ "permissionsByKey" := by
          rw [hsp] at hhead
          simpa using hhead
        cases rest with
        | nil =>
          simp only [hsp, hchk, if_true]
          by_cases hobj : isObjectType v = true
          · simp only [hobj, if_true]
            cases hgo : writeGo (writeF m) freshStore (entriesOfSVal v) with
            | mk c e =>
              cases e with
              | ok u => simp [hchk, gpk_write_parts s k0 k hk0]
              | error w => simp [hchk, gpk_defineOp s k0 k hk0]
          · simp only [hobj]
            simp [hchk, hobj, gpk_write_parts s k0 k hk0]
        | cons h2 t2 =>
          simp only [hsp, hchk, if_true]
          cases hgo : writeF m freshStore (joinCols (h2 :: t2)) v with
          | mk c e =>
            cases e with
            | ok u => simp [hchk, gpk_write_parts s k0 k hk0]
            | error w => simp [hchk, gpk_write_parts s k0 k hk0]
    · simp [hchk]

theorem gpk_writeGo (e : List (String × SVal)) (n : Nat) (s : Store) (k : String)
    (hh : ∀ kv ∈ e, (splitPath kv.fst).headD "" ≠ "permissionsByKey") :
    getPermissionsForKey (writeGo (writeF n) s e).fst k = getPermissionsForKey s k := by
  induction e generalizing s with
  | nil => rfl
  | cons hd tl ih =>
    obtain ⟨hk, hv⟩ := hd
    simp only [writeGo]
    cases hw : writeF n s hk hv with
    | mk s1 r =>
      have hstep : getPermissionsForKey s1 k = getPermissionsForKey s k := by
        have := gpk_writeF n s hk hv k (hh (hk, hv) (List.mem_cons_self _ _))
        rw [hw] at this
        exact this
      cases r with
      | ok u =>
        rw [ih s1 (fun kv hkv => hh kv (List.mem_cons_of_mem _ hkv))]
        exact hstep
      | error w => exact hstep

theorem gpk_applyOp (fuel : Nat) (s : Store) (op : Op) (k : String)
    (hpb : "permissionsByKey" ∉ headsOf op) :
    getPermissionsForKey (applyOp fuel s op) k = getPermissionsForKey s k := by
  cases op with
  | readOp p => rfl
  | entriesOp => rfl
  | writeOp p v =>
    refine gpk_writeF fuel s p v k ?_
    intro he
    exact hpb (by simp only [headsOf, he.symm]; exact List.mem_singleton.mpr rfl)
  | writeEntriesOp e =>
    refine gpk_writeGo e fuel s k ?_
    intro kv hkv he
    refine hpb ?_
    simp only [headsOf, List.mem_map]
    exact ⟨kv, hkv, he⟩

theorem alookup_append_none {α : Type} (k : String) (l1 l2 : List (String × α))
    (h : alookup k l1 = Option.none) : alookup k (l1 ++ l2) = alookup k l2 := by
  induction l1 with
  | nil => simp
  | cons hd tl ih =>
    by_cases hk : k = hd.fst
    · simp [alookup, hk] at h
    · simp only [alookup, List.cons_append, hk, if_false] at h ⊢
      exact ih h

theorem alookup_some_mem_keys {α : Type} {k : String} {v : α} {l : List (String × α)}
    (h : alookup k l = some v) : k ∈ l.map Prod.fst := by
  induction l with
  | nil => simp [alookup] at h
  | cons hd tl ih =>
    by_cases hk : k = hd.fst
    · simp [hk]
    · simp only [alookup, hk, if_false] at h
      simp [ih h]

theorem scontains_of_mem {l : List String} {k : String} (h : k ∈ l) : scontains l k = true := by
  induction l with
  | nil => simp at h
  | cons hd tl ih =>
    by_cases hk : hd = k
    · simp [scontains, hk]
    · rcases List.mem_cons.mp h with h1 | h2
      · exact absurd h1.symm hk
      · simp [scontains, hk, ih h2]

theorem alookup_filterMap_drop (keys : List String) (g : String → Bool) (h : String → DescSrc)
    (k : String) (hg : g k = true) :
    alookup k (keys.filterMap (fun k2 => if g k2 then Option.none else some (k2, h k2)))
      = Option.none := by
  induction keys with
  | nil => simp [alookup]
  | cons hd tl ih =>
    by_cases hk : hd = k
    · subst hk
      simp [hg, ih]
    · cases hgh : g hd
      · have hkh : ¬(k = hd) := fun he => hk he.symm
        simp only [List.filterMap_cons, hgh, if_false, Bool.false_eq_true]
        simpa [alookup, hkh] using ih
      · simp only [List.filterMap_cons, hgh, if_true]
        exact ih

theorem alookup_filterMap_keep (keys : List String) (g : String → Bool) (h : String → DescSrc)
    (k : String) (hmem : k ∈ keys) (hg : g k = false) :
    alookup k (keys.filterMap (fun k2 => if g k2 then Option.none else some (k2, h k2)))
      = some (h k) := by
  induction keys with
  | nil => simp at hmem
  | cons hd tl ih =>
    by_cases hk : hd = k
    · subst hk
      simp [hg, alookup]
    · have hmem2 : k ∈ tl := by
        rcases List.mem_cons.mp hmem with h1 | h2
        · exact absurd h1.symm hk
        · exact h2
      cases hgh : g hd
      · have hkh : ¬(k = hd) := fun he => hk he.symm
        simp only [List.filterMap_cons, hgh, if_false, Bool.false_eq_true]
        simpa [alookup, hkh] using ih hmem2
      · simp only [List.filterMap_cons, hgh, if_true]
        exact ih hmem2

theorem alookup_mapSnd {α β : Type} (g : α → β) (k : String) (l : List (String × α)) :
    alookup k (l.map (fun kv => (kv.fst, g kv.snd))) = (alookup k l).map g := by
  induction l with
  | nil => simp [alookup]
  | cons hd tl ih =>
    by_cases hk : k = hd.fst
    · simp [alookup, hk]
    · simp [alookup, hk, ih]

theorem alookup_condSingleton (k k2 : String) (d : DescSrc) (b : Bool)
    (h : k ≠ k2 ∨ b = true) :
    alookup k (if b then ([] : List (String × DescSrc)) else [(k2, d)]) = Option.none := by
  cases b
  · rcases h with h1 | h2
    · simp [alookup, h1]
    · simp at h2
  · simp [alookup]

theorem alookup_append_some {α : Type} {k : String} {v : α} {l1 : List (String × α)}
    (l2 : List (String × α)) (h : alookup k l1 = some v) :
    alookup k (l1 ++ l2) = some v := by
  induction l1 with
  | nil => simp [alookup] at h
  | cons hd tl ih =>
    by_cases hk : k = hd.fst
    · simp only [alookup, hk, if_true] at h
      simp [alookup, hk, h]
    · simp only [alookup, hk, if_false] at h
      simp only [List.cons_append, alookup, hk, if_false]
      exact ih h

theorem alookup_allDescs_slot (s : Store) (k : String) (r : Raw)
    (hk : alookup k s.slots = some r) :
    alookup k (allDescs s) = some (DescSrc.accD r) := by
  have hmem : k ∈ s.slots.map Prod.fst := alookup_some_mem_keys hk
  have hown : scontains ("defaultPolicy" :: "permissionsByKey" :: s.slots.map Prod.fst) k
      = true := scontains_of_mem (by simp [hmem])
  simp only [allDescs, List.append_assoc]
  rw [alookup_append_none _ _ _ (alookup_filterMap_drop _ _ _ _ hown)]
  rw [alookup_append_none _ _ _ (alookup_filterMap_drop _ _ _ _ hown)]
  rw [alookup_append_none, alookup_append_none]
  · rw [alookup_mapSnd DescSrc.accD k s.slots, hk]
    rfl
  · refine alookup_condSingleton _ _ _ _ ?_
    by_cases hdp : k = "permissionsByKey"
    · subst hdp
      right
      simp [hk]
    · exact Or.inl hdp
  · refine alookup_condSingleton _ _ _ _ ?_
    by_cases hdp : k = "defaultPolicy"
    · subst hdp
      right
      simp [hk]
    · exact Or.inl hdp

theorem alookup_allDescs_dp (s : Store)
    (h : alookup "defaultPolicy" s.slots = Option.none) :
    alookup "defaultPolicy" (allDescs s) = some DescSrc.dpD := by
  have hown : scontains ("defaultPolicy" :: "permissionsByKey" :: s.slots.map Prod.fst)
      "defaultPolicy" = true := by simp [scontains]
  simp only [allDescs, List.append_assoc]
  rw [alookup_append_none _ _ _ (alookup_filterMap_drop _ _ _ _ hown)]
  rw [alookup_append_none _ _ _ (alookup_filterMap_drop _ _ _ _ hown)]
  refine alookup_append_some _ ?_
  simp [h, alookup]

theorem alookup_allDescs_pbk (s : Store)
    (h : alookup "permissionsByKey" s.slots = Option.none) :
    alookup "permissionsByKey" (allDescs s) = some DescSrc.pbkD := by
  have hown : scontains ("defaultPolicy" :: "permissionsByKey" :: s.slots.map Prod.fst)
      "permissionsByKey" = true := by simp [scontains]
  simp only [allDescs, List.append_assoc]
  rw [alookup_append_none _ _ _ (alookup_filterMap_drop _ _ _ _ hown)]
  rw [alookup_append_none _ _ _ (alookup_filterMap_drop _ _ _ _ hown)]
  rw [alookup_append_none]
  · refine alookup_append_some _ ?_
    simp [h, alookup]
  · exact alookup_condSingleton _ _ _ _ (Or.inl (by decide))

theorem scontains_false_of_not_mem {l : List String} {k : String} (h : ¬ k ∈ l) :
    scontains l k = false := by
  induction l with
  | nil => rfl
  | cons hd tl ih =>
    have h1 : ¬ hd = k := fun he => h (by simp [he])
    have h2 : ¬ k ∈ tl := fun hm => h (List.mem_cons_of_mem _ hm)
    simp [scontains, h1, ih h2]

theorem alookup_allDescs_method (s : Store) (k : String)
    (hmeth : k ∈ protoMethodKeys)
    (hdp : k ≠ "defaultPolicy")
    (hpbk : k ≠ "permissionsByKey")
    (hslot : ¬ k ∈ s.slots.map Prod.fst) :
    alookup k (allDescs s) = some DescSrc.methodD := by
  have hown : scontains ("defaultPolicy" :: "permissionsByKey" :: s.slots.map Prod.fst) k
      = false := by
    refine scontains_false_of_not_mem ?_
    intro hmem
    rcases List.mem_cons.mp hmem with h1 | hmem2
    · exact hdp h1
    · rcases List.mem_cons.mp hmem2 with h2 | h3
      · exact hpbk h2
      · exact hslot h3
  simp only [allDescs, List.append_assoc]
  refine alookup_append_some _ ?_
  exact alookup_filterMap_keep _ _ _ _ hmeth hown

theorem entriesGo_lookup_none (rec : Store → Option (List (String × EntryVal))) (s : Store)
    (ds : List (String × DescSrc)) :
    ∀ (l : List (String × EntryVal)) (k : String),
    alookup k ds = Option.none → entriesGo rec s ds = some l → alookup k l = Option.none := by
  induction ds with
  | nil =>
    intro l k _ h
    simp only [entriesGo] at h
    obtain rfl := Option.some.inj h
    rfl
  | cons hd tl ih =>
    intro l k hds h
    obtain ⟨k2, d⟩ := hd
    have hne : ¬ (k = k2) := by
      intro he
      simp [alookup, he] at hds
    have htl : alookup k tl = Option.none := by
      simpa [alookup, hne] using hds
    simp only [entriesGo] at h
    split at h
    · split at h
      · split at h
        · rename_i lc hrec lr hgo
          obtain rfl := Option.some.inj h
          simp only [alookup, hne, if_false]
          exact ih lr k htl hgo
        · cases h
      · cases h
    · split at h
      · rename_i lr hgo
        obtain rfl := Option.some.inj h
        by_cases hal : allowedToRead s k2 = true
        · simp only [hal, if_true, alookup, hne, if_false]
          exact ih lr k htl hgo
        · simp only [Bool.not_eq_true] at hal
          simp only [hal, Bool.false_eq_true, if_false]
          exact ih lr k htl hgo
      · cases h
    · split at h
      · rename_i lr hgo
        obtain rfl := Option.some.inj h
        by_cases hal : allowedToRead s k2 = true
        · simp only [hal, if_true, alookup, hne, if_false]
          exact ih lr k htl hgo
        · simp only [Bool.not_eq_true] at hal
          simp only [hal, Bool.false_eq_true, if_false]
          exact ih lr k htl hgo
      · cases h
theorem entriesGo_lookup_store (rec : Store → Option (List (String × EntryVal))) (s : Store)
    (ds : List (String × DescSrc)) :
    ∀ (l : List (String × EntryVal)) (k : String) (d : DescSrc) (c : Store),
    alookup k ds = some d → descView s d = .dvRaw (.store c) →
    entriesGo rec s ds = some l →
    ∃ lc, rec c = some lc ∧ alookup k l = some (.sub lc) := by
  induction ds with
  | nil =>
    intro l k d c hds
    simp [alookup] at hds
  | cons hd tl ih =>
    intro l k d c hds hdv h
    obtain ⟨k2, d2⟩ := hd
    by_cases hk : k = k2
    · subst hk
      have hd2 : d2 = d := by simpa [alookup] using hds
      subst hd2
      simp only [entriesGo] at h
      split at h
      · rename_i c2 heq
        rw [hdv] at heq
        injection heq with h1
        injection h1 with h2
        subst h2
        split at h
        · rename_i lc hrec
          split at h
          · rename_i lr hgo
            obtain rfl := Option.some.inj h
            exact ⟨lc, hrec, by simp [alookup]⟩
          · cases h
        · cases h
      · rename_i v hv heq
        rw [hdv] at heq
        injection heq with h1
        exact absurd h1.symm (fun he => hv c he)
      · rename_i heq
        rw [hdv] at heq
        cases heq
    · have htl : alookup k tl = some d := by
        simpa [alookup, hk] using hds
      simp only [entriesGo] at h
      split at h
      · split at h
        · split at h
          · rename_i lr hgo
            obtain rfl := Option.some.inj h
            obtain ⟨lc2, hrec2, hlk⟩ := ih lr k d c htl hdv hgo
            exact ⟨lc2, hrec2, by simpa [alookup, hk] using hlk⟩
          · cases h
        · cases h
      · split at h
        · rename_i lr hgo
          obtain rfl := Option.some.inj h
          obtain ⟨lc2, hrec2, hlk⟩ := ih lr k d c htl hdv hgo
          refine ⟨lc2, hrec2, ?_⟩
          by_cases hal : allowedToRead s k2 = true
          · simpa [hal, alookup, hk] using hlk
          · simpa [hal, alookup, hk] using hlk
        · cases h
      · split at h
        · rename_i lr hgo
          obtain rfl := Option.some.inj h
          obtain ⟨lc2, hrec2, hlk⟩ := ih lr k d c htl hdv hgo
          refine ⟨lc2, hrec2, ?_⟩
          by_cases hal : allowedToRead s k2 = true
          · simpa [hal, alookup, hk] using hlk
          · simpa [hal, alookup, hk] using hlk
        · cases h
theorem entriesGo_lookup_raw (rec : Store → Option (List (String × EntryVal))) (s : Store)
    (ds : List (String × DescSrc)) :
    ∀ (l : List (String × EntryVal)) (k : String) (d : DescSrc) (v : Raw),
    alookup k ds = some d → descView s d = .dvRaw v → (∀ c, v ≠ .store c) →
    allowedToRead s k = true →
    entriesGo rec s ds = some l →
    alookup k l = some (.raw v) := by
  induction ds with
  | nil =>
    intro l k d v hds
    simp [alookup] at hds
  | cons hd tl ih =>
    intro l k d v hds hdv hnst hal h
    obtain ⟨k2, d2⟩ := hd
    by_cases hk : k = k2
    · subst hk
      have hd2 : d2 = d := by simpa [alookup] using hds
      subst hd2
      simp only [entriesGo] at h
      split at h
      · rename_i c2 heq
        rw [hdv] at heq
        injection heq with h1
        exact absurd h1 (hnst c2)
      · rename_i v2 hv2 heq
        rw [hdv] at heq
        injection heq with h1
        subst h1
        split at h
        · rename_i lr hgo
          obtain rfl := Option.some.inj h
          simp [hal, alookup]
        · cases h
      · rename_i heq
        rw [hdv] at heq
        cases heq
    · have htl : alookup k tl = some d := by
        simpa [alookup, hk] using hds
      simp only [entriesGo] at h
      split at h
      · split at h
        · split at h
          · rename_i lr hgo
            obtain rfl := Option.some.inj h
            simpa [alookup, hk] using ih lr k d v htl hdv hnst hal hgo
          · cases h
        · cases h
      · split at h
        · rename_i lr hgo
          obtain rfl := Option.some.inj h
          by_cases hal2 : allowedToRead s k2 = true
          · simpa [hal2, alookup, hk] using ih lr k d v htl hdv hnst hal hgo
          · simpa [hal2, alookup, hk] using ih lr k d v htl hdv hnst hal hgo
        · cases h
      · split at h
        · rename_i lr hgo
          obtain rfl := Option.some.inj h
          by_cases hal2 : allowedToRead s k2 = true
          · simpa [hal2, alookup, hk] using ih lr k d v htl hdv hnst hal hgo
          · simpa [hal2, alookup, hk] using ih lr k d v htl hdv hnst hal hgo
        · cases h
theorem entriesGo_lookup_method (rec : Store → Option (List (String × EntryVal))) (s : Store)
    (ds : List (String × DescSrc)) :
    ∀ (l : List (String × EntryVal)) (k : String) (d : DescSrc),
    alookup k ds = some d → descView s d = .dvMethod →
    allowedToRead s k = true →
    entriesGo rec s ds = some l →
    alookup k l = some (.methodV k) := by
  induction ds with
  | nil =>
    intro l k d hds
    simp [alookup] at hds
  | cons hd tl ih =>
    intro l k d hds hdv hal h
    obtain ⟨k2, d2⟩ := hd
    by_cases hk : k = k2
    · subst hk
      have hd2 : d2 = d := by simpa [alookup] using hds
      subst hd2
      simp only [entriesGo] at h
      split at h
      · rename_i c2 heq
        rw [hdv] at heq
        cases heq
      · rename_i v2 hv2 heq
        rw [hdv] at heq
        cases heq
      · split at h
        · rename_i lr hgo
          obtain rfl := Option.some.inj h
          simp [hal, alookup]
        · cases h
    · have htl : alookup k tl = some d := by
        simpa [alookup, hk] using hds
      simp only [entriesGo] at h
      split at h
      · split at h
        · split at h
          · rename_i lr hgo
            obtain rfl := Option.some.inj h
            simpa [alookup, hk] using ih lr k d htl hdv hal hgo
          · cases h
        · cases h
      · split at h
        · rename_i lr hgo
          obtain rfl := Option.some.inj h
          by_cases hal2 : allowedToRead s k2 = true
          · simpa [hal2, alookup, hk] using ih lr k d htl hdv hal hgo
          · simpa [hal2, alookup, hk] using ih lr k d htl hdv hal hgo
        · cases h
      · split at h
        · rename_i lr hgo
          obtain rfl := Option.some.inj h
          by_cases hal2 : allowedToRead s k2 = true
          · simpa [hal2, alookup, hk] using ih lr k d htl hdv hal hgo
          · simpa [hal2, alookup, hk] using ih lr k d htl hdv hal hgo
        · cases h
theorem occsOf_nil_alookup {α : Type} {k : String} {l : List (String × α)}
    (h : occsOf k l = []) : alookup k l = Option.none := by
  induction l with
  | nil => rfl
  | cons hd tl ih =>
    obtain ⟨k2, v⟩ := hd
    by_cases hk : k2 = k
    · simp [occsOf, hk] at h
    · have hk2 : ¬ (k = k2) := fun he => hk he.symm
      simp only [occsOf, hk, if_false] at h
      simp only [alookup, hk2, if_false]
      exact ih h

theorem occsOf_alookup {α : Type} {k : String} {r : α} {l rest : List (String × α)}
    (h : occsOf k l = (k, r) :: rest) : alookup k l = some r := by
  induction l with
  | nil => simp [occsOf] at h
  | cons hd tl ih =>
    obtain ⟨k2, v⟩ := hd
    by_cases hk : k2 = k
    · subst hk
      simp only [occsOf, if_true] at h
      obtain ⟨h1, _⟩ := List.cons.inj h
      obtain ⟨_, h3⟩ := Prod.mk.injEq .. ▸ h1
      simp [alookup, h3]
    · have hk2 : ¬ (k = k2) := fun he => hk he.symm
      simp only [occsOf, hk, if_false] at h
      simp only [alookup, hk2, if_false]
      exact ih h

theorem occsOf_append {α : Type} (k : String) (l1 l2 : List (String × α)) :
    occsOf k (l1 ++ l2) = occsOf k l1 ++ occsOf k l2 := by
  induction l1 with
  | nil => simp [occsOf]
  | cons hd tl ih =>
    obtain ⟨k2, v⟩ := hd
    by_cases hk : k2 = k
    · simp [occsOf, hk, ih]
    · simp [occsOf, hk, ih]

theorem occsOf_filterMap_drop (keys : List String) (g : String → Bool) (h : String → DescSrc)
    (k : String) (hg : g k = true) :
    occsOf k (keys.filterMap (fun k2 => if g k2 then Option.none else some (k2, h k2))) = [] := by
  induction keys with
  | nil => rfl
  | cons hd tl ih =>
    by_cases hk : hd = k
    · subst hk
      simp [hg, ih]
    · cases hgh : g hd
      · simp only [List.filterMap_cons, hgh, if_false, Bool.false_eq_true]
        simp only [occsOf, hk, if_false]
        exact ih
      · simp only [List.filterMap_cons, hgh, if_true]
        exact ih

theorem occsOf_condSingleton (k k2 : String) (d : DescSrc) (b : Bool)
    (h : k ≠ k2 ∨ b = true) :
    occsOf k (if b then ([] : List (String × DescSrc)) else [(k2, d)]) = [] := by
  cases b
  · rcases h with h1 | h2
    · have h3 : ¬ (k2 = k) := fun he => h1 he.symm
      simp [occsOf, h3]
    · simp at h2
  · simp [occsOf]

theorem occsOf_mapSnd {α β : Type} (g : α → β) (k : String) (l : List (String × α)) :
    occsOf k (l.map (fun kv => (kv.fst, g kv.snd)))
      = (occsOf k l).map (fun kv => (kv.fst, g kv.snd)) := by
  induction l with
  | nil => rfl
  | cons hd tl ih =>
    obtain ⟨k2, v⟩ := hd
    by_cases hk : k2 = k
    · simp [occsOf, hk, ih]
    · simp [occsOf, hk, ih]
theorem entriesGo_lookup_skipped (rec : Store → Option (List (String × EntryVal))) (s : Store)
    (ds : List (String × DescSrc)) :
    ∀ (l : List (String × EntryVal)) (k : String) (d : DescSrc) (v : Raw),
    occsOf k ds = [(k, d)] → descView s d = .dvRaw v → (∀ c, v ≠ .store c) →
    allowedToRead s k = false →
    entriesGo rec s ds = some l →
    alookup k l = Option.none := by
  induction ds with
  | nil =>
    intro l k d v hocc
    simp [occsOf] at hocc
  | cons hd tl ih =>
    intro l k d v hocc hdv hnst hal h
    obtain ⟨k2, d2⟩ := hd
    by_cases hk : k = k2
    · subst hk
      simp only [occsOf, if_pos rfl] at hocc
      obtain ⟨h1, h2⟩ := List.cons.inj hocc
      have hd2 : d2 = d := congrArg Prod.snd h1
      subst hd2
      have htl : alookup k tl = Option.none := occsOf_nil_alookup h2
      simp only [entriesGo] at h
      split at h
      · rename_i c2 heq
        rw [hdv] at heq
        injection heq with hinj
        exact absurd hinj (hnst c2)
      · rename_i v2 hv2 heq
        rw [hdv] at heq
        injection heq with hinj
        subst hinj
        split at h
        · rename_i lr hgo
          obtain rfl := Option.some.inj h
          simp only [hal, Bool.false_eq_true, if_false]
          exact entriesGo_lookup_none rec s tl lr k htl hgo
        · cases h
      · rename_i heq
        rw [hdv] at heq
        cases heq
    · have h3 : ¬ (k2 = k) := fun he => hk he.symm
      have hocc2 : occsOf k tl = [(k, d)] := by
        simpa [occsOf, h3] using hocc
      simp only [entriesGo] at h
      split at h
      · split at h
        · split at h
          · rename_i lr hgo
            obtain rfl := Option.some.inj h
            simp only [alookup, hk, if_false]
            exact ih lr k d v hocc2 hdv hnst hal hgo
          · cases h
        · cases h
      · split at h
        · rename_i lr hgo
          obtain rfl := Option.some.inj h
          by_cases hal2 : allowedToRead s k2 = true
          · simp only [hal2, if_true, alookup, hk, if_false]
            exact ih lr k d v hocc2 hdv hnst hal hgo
          · simp only [Bool.not_eq_true] at hal2
            simp only [hal2, Bool.false_eq_true, if_false]
            exact ih lr k d v hocc2 hdv hnst hal hgo
        · cases h
      · split at h
        · rename_i lr hgo
          obtain rfl := Option.some.inj h
          by_cases hal2 : allowedToRead s k2 = true
          · simp only [hal2, if_true, alookup, hk, if_false]
            exact ih lr k d v hocc2 hdv hnst hal hgo
          · simp only [Bool.not_eq_true] at hal2
            simp only [hal2, Bool.false_eq_true, if_false]
            exact ih lr k d v hocc2 hdv hnst hal hgo
        · cases h
theorem occsOf_allDescs_slot (s : Store) (k : String) (r : Raw)
    (hocc : occsOf k s.slots = [(k, r)]) :
    occsOf k (allDescs s) = [(k, DescSrc.accD r)] := by
  have hlk : alookup k s.slots = some r := occsOf_alookup hocc
  have hmem : k ∈ s.slots.map Prod.fst := alookup_some_mem_keys hlk
  have hown : scontains ("defaultPolicy" :: "permissionsByKey" :: s.slots.map Prod.fst) k
      = true := scontains_of_mem (by simp [hmem])
  have hdp : occsOf k
      (if (alookup "defaultPolicy" s.slots).isSome then ([] : List (String × DescSrc))
       else [("defaultPolicy", DescSrc.dpD)]) = [] := by
    refine occsOf_condSingleton _ _ _ _ ?_
    by_cases hke : k = "defaultPolicy"
    · subst hke
      right
      simp [hlk]
    · exact Or.inl hke
  have hpbk : occsOf k
      (if (alookup "permissionsByKey" s.slots).isSome then ([] : List (String × DescSrc))
       else [("permissionsByKey", DescSrc.pbkD)]) = [] := by
    refine occsOf_condSingleton _ _ _ _ ?_
    by_cases hke : k = "permissionsByKey"
    · subst hke
      right
      simp [hlk]
    · exact Or.inl hke
  simp only [allDescs, occsOf_append, occsOf_filterMap_drop _ _ _ _ hown, hdp, hpbk,
    occsOf_mapSnd, hocc, List.nil_append, List.append_nil, List.map_cons, List.map_nil]
theorem descView_accD (s : Store) (r : Raw) :
    descView s (.accD r) = .dvRaw (coalesceNull r) := by
  cases r with
  | prim p => cases p <;> rfl
  | undefined => rfl
  | fn f => rfl
  | store c => rfl
  | pbObj m => rfl

theorem coalesceNull_nonstore (r : Raw) (hnst : ∀ c, r ≠ .store c) :
    ∀ c, coalesceNull r ≠ .store c := by
  intro c he
  cases r with
  | store c2 => exact hnst c2 rfl
  | undefined => exact Raw.noConfusion he
  | prim p => cases p <;> exact Raw.noConfusion he
  | fn f => exact Raw.noConfusion he
  | pbObj m => exact Raw.noConfusion he

/-- C2 (amended): `entries()` uses the raw value of each enumerated
descriptor without resolving it: a producer stored at a key is not
invoked and appears as the function itself; a raw value that is a
nested store is included through the recursive `entries()`
unconditionally, regardless of the read permission of the key; any
other raw value — after the null-coalescing fallback of the source,
which maps null and undefined contents to undefined — is included if
and only if `allowedToRead` holds for the key (the only-if direction
stated for keys occurring once among the slots). -/
theorem c2_entries_amended (n : Nat) (s : Store) (l : List (String × EntryVal)) (k : String)
    (h : entriesF (n + 1) s = some l) :
    (∀ f, alookup k s.slots = some (.fn f) → allowedToRead s k = true →
       alookup k l = some (.raw (.fn f))) ∧
    (∀ c, alookup k s.slots = some (.store c) →
       ∃ lc, entriesF n c = some lc ∧ alookup k l = some (.sub lc)) ∧
    (∀ r, alookup k s.slots = some r → (∀ c, r ≠ .store c) → allowedToRead s k = true →
       alookup k l = some (.raw (coalesceNull r))) ∧
    (∀ r, occsOf k s.slots = [(k, r)] → (∀ c, r ≠ .store c) → allowedToRead s k = false →
       alookup k l = Option.none) := by
  simp only [entriesF] at h
  refine ⟨?_, ?_, ?_, ?_⟩
  · intro f hk hal
    exact entriesGo_lookup_raw (entriesF n) s (allDescs s) l k (.accD (.fn f)) (.fn f)
      (alookup_allDescs_slot s k _ hk) rfl (fun c he => Raw.noConfusion he) hal h
  · intro c hk
    exact entriesGo_lookup_store (entriesF n) s (allDescs s) l k (.accD (.store c)) c
      (alookup_allDescs_slot s k _ hk) rfl h
  · intro r hk hnst hal
    exact entriesGo_lookup_raw (entriesF n) s (allDescs s) l k (.accD r) (coalesceNull r)
      (alookup_allDescs_slot s k _ hk) (descView_accD s r) (coalesceNull_nonstore r hnst)
      hal h
  · intro r hocc hnst hal
    exact entriesGo_lookup_skipped (entriesF n) s (allDescs s) l k (.accD r) (coalesceNull r)
      (occsOf_allDescs_slot s k _ hocc) (descView_accD s r) (coalesceNull_nonstore r hnst)
      hal h

theorem c2_entries_amended_witness :
    allowedToRead c2Store "k" = true ∧
    alookup "k" ((entriesF 2 c2Store).getD []) = some (.raw (.fn (.constP (.num 5)))) ∧
    allowedToRead c2StoreB "k" = false ∧
    alookup "k" ((entriesF 2 c2StoreB).getD []) = some (.sub ((entriesF 1 abChild).getD [])) ∧
    alookup "k" ((entriesF 2 nullStore).getD []) = some (.raw .undefined) ∧
    allowedToRead c2StoreC "k" = false ∧
    alookup "k" ((entriesF 2 c2StoreC).getD []) = Option.none := by
  refine ⟨rfl, ?_, rfl, ?_, ?_, rfl, ?_⟩
  · exact (c2_entries_amended 1 c2Store ((entriesF 2 c2Store).getD []) "k" rfl).1 _ rfl rfl
  · obtain ⟨lc, h1, h2⟩ :=
      (c2_entries_amended 1 c2StoreB ((entriesF 2 c2StoreB).getD []) "k" rfl).2.1 abChild rfl
    have h3 : (entriesF 1 abChild).getD [] = lc := by
      rw [h1]
      rfl
    rw [h3]
    exact h2
  · exact (c2_entries_amended 1 nullStore ((entriesF 2 nullStore).getD []) "k" rfl).2.2.1
      (.prim .null) rfl (fun c he => Raw.noConfusion he) rfl
  · exact (c2_entries_amended 1 c2StoreC ((entriesF 2 c2StoreC).getD []) "k" rfl).2.2.2
      (.fn (.constP (.num 5))) rfl (fun c he => Raw.noConfusion he) rfl

/-- C2 counterexample: for the reachable store `c2Store`, whose slot
"k" holds the producer `() => 5`, the claim requires `entries()` to
carry the resolved producer result `5` under "k"; the code instead
carries the producer function itself. -/
theorem c2_entries_cex :
    allowedToRead c2Store "k" = true ∧
    resolveValue (.fn (.constP (.num 5))) c2Store = .prim (.num 5) ∧
    alookup "k" ((entriesF 2 c2Store).getD []) = some (.raw (.fn (.constP (.num 5)))) ∧
    (some (EntryVal.raw (.fn (.constP (.num 5)))) : Option EntryVal)
      ≠ some (.raw (.prim (.num 5))) := by
  refine ⟨rfl, rfl, rfl, ?_⟩
  intro h
  injection h with h1
  injection h1 with h2
  exact Raw.noConfusion h2

/-- C10: `entries()` enumerates all own and prototype property
descriptors, so on any store with readable bookkeeping keys its result
also contains `defaultPolicy`, `permissionsByKey` and the class method
slots as values; in particular the `entries()` of a fresh empty store is
not empty. -/
theorem c10_entries_bookkeeping (n : Nat) (s : Store) (l : List (String × EntryVal))
    (h : entriesF (n + 1) s = some l)
    (hdp : alookup "defaultPolicy" s.slots = Option.none)
    (hdpr : allowedToRead s "defaultPolicy" = true)
    (hpb : alookup "permissionsByKey" s.slots = Option.none)
    (hpbr : allowedToRead s "permissionsByKey" = true)
    (hrd : ¬ "read" ∈ s.slots.map Prod.fst)
    (hrdr : allowedToRead s "read" = true) :
    alookup "defaultPolicy" l = some (.raw (.prim (.str (permStr s.defaultPolicy)))) ∧
    alookup "permissionsByKey" l = some (.raw (.pbObj s.permissionsByKey)) ∧
    alookup "read" l = some (.methodV "read") ∧
    l ≠ [] := by
  simp only [entriesF] at h
  have ha : alookup "defaultPolicy" l = some (.raw (.prim (.str (permStr s.defaultPolicy)))) :=
    entriesGo_lookup_raw (entriesF n) s (allDescs s) l "defaultPolicy" .dpD _
      (alookup_allDescs_dp s hdp) rfl (fun c he => Raw.noConfusion he) hdpr h
  have hb : alookup "permissionsByKey" l = some (.raw (.pbObj s.permissionsByKey)) :=
    entriesGo_lookup_raw (entriesF n) s (allDescs s) l "permissionsByKey" .pbkD _
      (alookup_allDescs_pbk s hpb) rfl (fun c he => Raw.noConfusion he) hpbr h
  have hc : alookup "read" l = some (.methodV "read") :=
    entriesGo_lookup_method (entriesF n) s (allDescs s) l "read" .methodD
      (alookup_allDescs_method s "read" (by decide) (by decide) (by decide) hrd) rfl hrdr h
  refine ⟨ha, hb, hc, ?_⟩
  intro hnil
  rw [hnil] at ha
  cases ha

theorem c10_entries_bookkeeping_witness :
    alookup "defaultPolicy" ((entriesF 1 freshStore).getD [])
      = some (.raw (.prim (.str "rw"))) ∧
    alookup "read" ((entriesF 1 freshStore).getD []) = some (.methodV "read") ∧
    (entriesF 1 freshStore).getD [] ≠ [] := by
  have hmain := c10_entries_bookkeeping 0 freshStore ((entriesF 1 freshStore).getD [])
    rfl rfl rfl rfl rfl (by simp [freshStore, Store.slots]) rfl
  exact ⟨hmain.1, hmain.2.2.1, hmain.2.2.2⟩
theorem checkSegsC_single (s : Store) (k : String) (perms : List Permission) :
    checkSegsC s [k] perms = (localCheck s k perms, 0) := rfl

theorem localCheck_denies (s : Store) (k : String) (perms : List Permission)
    (hnone : s.defaultPolicy = .none)
    (hsh : alookup "defaultPolicy" s.slots = Option.none)
    (hov : getPermissionsForKey s k = []) :
    localCheck s k perms = false := by
  simp [localCheck, hov, dpRaw, hsh, hnone, rawStrEq, permStr]

/-- C5 (amended): for a single-segment key (so that the permission
check cannot delegate into a nested store), `defaultPolicy = none`
with an unshadowed policy field and no per-key override resolving for
the key makes both permission checks return false. -/
theorem c5_none_single_segment (s : Store) (k : String)
    (hseg : splitPath k = [k])
    (hnone : s.defaultPolicy = .none)
    (hsh : alookup "defaultPolicy" s.slots = Option.none)
    (hov : getPermissionsForKey s k = []) :
    allowedToRead s k = false ∧ allowedToWrite s k = false := by
  constructor <;>
    simp [allowedToRead, allowedToWrite, checkHasPermissionForKey, hseg, checkSegsC_single,
      localCheck_denies s k _ hnone hsh hov]

theorem c5_none_single_segment_witness :
    splitPath "x" = ["x"] ∧
    noneFresh.defaultPolicy = Permission.none ∧
    getPermissionsForKey noneFresh "x" = [] ∧
    allowedToRead noneFresh "x" = false ∧ allowedToWrite noneFresh "x" = false := by
  refine ⟨rfl, rfl, rfl, ?_⟩
  exact c5_none_single_segment noneFresh "x" rfl rfl rfl rfl

/-- C5 counterexample: `noneStoreAB` is the reachable state
`const s = new Store(); s.write("a:b", 5); s.defaultPolicy = "none"`.
Its policy is "none" and the key "a:b" has no per-key override (neither
on the instance map nor on any prototype table), yet both checks
return true, because the multi-segment check fully delegates to the
nested store at "a", whose own default policy is "rw". -/
theorem c5_none_policy_cex :
    noneStoreAB.defaultPolicy = Permission.none ∧
    alookup "a:b" noneStoreAB.permissionsByKey = Option.none ∧
    alookup "a:b" noneStoreAB.protoPerms = Option.none ∧
    allowedToRead noneStoreAB "a:b" = true ∧
    allowedToWrite noneStoreAB "a:b" = true :=
  ⟨rfl, rfl, rfl, rfl, rfl⟩

/-- C7 (amended): for a single-segment key with `defaultPolicy = none`
(unshadowed) and no override resolving for the key, `write` returns
the PermissionDenied error with the exact source message and the
resulting store is the input store itself: the denial precedes every
mutation, so slots, `permissionsByKey` and `entries()` are untouched. -/
theorem c7_denied_write_no_mutation (n : Nat) (s : Store) (k : String) (v : SVal)
    (hseg : splitPath k = [k])
    (hnone : s.defaultPolicy = .none)
    (hsh : alookup "defaultPolicy" s.slots = Option.none)
    (hov : getPermissionsForKey s k = []) :
    writeF (n + 1) s k v
      = (s, .error (.permDenied ("Not allowed to write for path " ++ k))) := by
  have hc : (checkSegsC s (splitPath k) [Permission.w, .rw]).fst = false := by
    rw [hseg, checkSegsC_single]
    exact localCheck_denies s k _ hnone hsh hov
  simp [writeF, hc]

theorem c7_denied_write_no_mutation_witness :
    splitPath "x" = ["x"] ∧
    noneFresh.defaultPolicy = Permission.none ∧
    writeF 1 noneFresh "x" (.prim (.num 1))
      = (noneFresh, .error (.permDenied "Not allowed to write for path x")) := by
  refine ⟨rfl, rfl, ?_⟩
  exact c7_denied_write_no_mutation 0 noneFresh "x" (.prim (.num 1)) rfl rfl rfl rfl

/-- C7 counterexample: on the reachable state `noneStoreAB`
(defaultPolicy "none", no override for "a:b"), `write("a:b", 7)` does
not raise: the check delegates to the permissive nested store, the
write succeeds, and the stored contents change (the value read at
"a:b" flips from 5 to 7). -/
theorem c7_denied_write_cex :
    noneStoreAB.defaultPolicy = Permission.none ∧
    alookup "a:b" noneStoreAB.permissionsByKey = Option.none ∧
    (writeF 4 noneStoreAB "a:b" (.prim (.num 7))).snd
      = .ok (.store (.mk .rw [] [] [("b", [])] [("b", .prim (.num 7))])) ∧
    readVal (writeF 4 noneStoreAB "a:b" (.prim (.num 7))).fst "a:b" = .ok (.prim (.num 7)) ∧
    readVal noneStoreAB "a:b" = .ok (.prim (.num 5)) :=
  ⟨rfl, rfl, rfl, rfl, rfl⟩
theorem protoPerms_defineOp (s : Store) (h : String) (ps : List Permission) :
    (defineOp s h ps).protoPerms = s.protoPerms := by
  unfold defineOp
  cases hpbk : alookup "permissionsByKey" s.slots <;>
    simp [hpbk, protoPerms_setSlots, protoPerms_setPermMap]

theorem protoPerms_setSlot (s : Store) (h : String) (r : Raw) :
    (setSlot s h r).protoPerms = s.protoPerms := by
  simp [setSlot, protoPerms_setSlots]

theorem protoPerms_writeF (n : Nat) (s : Store) (p : String) (v : SVal) :
    (writeF n s p v).fst.protoPerms = s.protoPerms := by
  cases n with
  | zero => rfl
  | succ m =>
    simp only [writeF]
    by_cases hchk : (checkSegsC s (splitPath p) [Permission.w, .rw]).fst = true
    · cases hsp : splitPath p with
      | nil =>
        rw [hsp] at hchk
        simp [hsp, hchk]
      | cons k0 rest =>
        rw [hsp] at hchk
        cases rest with
        | nil =>
          simp only [hsp, hchk, if_true]
          by_cases hobj : isObjectType v = true
          · simp only [hobj, if_true]
            cases hgo : writeGo (writeF m) freshStore (entriesOfSVal v) with
            | mk c e =>
              cases e with
              | ok u => simp [hchk, protoPerms_setSlot, protoPerms_defineOp]
              | error w => simp [hchk, protoPerms_defineOp]
          · simp only [hobj]
            simp [hchk, hobj, protoPerms_setSlot, protoPerms_defineOp]
        | cons h2 t2 =>
          simp only [hsp, hchk, if_true]
          cases hgo : writeF m freshStore (joinCols (h2 :: t2)) v with
          | mk c e =>
            cases e with
            | ok u => simp [hchk, protoPerms_setSlot, protoPerms_defineOp]
            | error w => simp [hchk, protoPerms_setSlot, protoPerms_defineOp]
    · simp [hchk]

theorem protoPermLookup_writeF (n : Nat) (s : Store) (p : String) (v : SVal) (k : String) :
    protoPermLookup (writeF n s p v).fst k = protoPermLookup s k := by
  simp [protoPermLookup, protoPerms_writeF]

theorem gpk_shadowed_nonPb (s : Store) (r : Raw) (k : String)
    (hsh : alookup "permissionsByKey" s.slots = some r)
    (hnp : ∀ m, r ≠ .pbObj m) :
    getPermissionsForKey s k = protoPermLookup s k := by
  simp only [getPermissionsForKey, hsh]

theorem pbk_slot_defineOp (s : Store) (ps : List Permission) :
    alookup "permissionsByKey"
      (defineOp s "permissionsByKey" ps).slots = some Raw.undefined := by
  unfold defineOp
  cases hpbk : alookup "permissionsByKey" s.slots <;>
    simp [hpbk, slots_setSlots, slots_setPermMap, alookup_ainsert_self]

theorem pbk_slot_setSlot (s : Store) (r : Raw) :
    alookup "permissionsByKey" (setSlot s "permissionsByKey" r).slots = some r := by
  simp [setSlot, slots_setSlots, alookup_ainsert_self]

theorem gpk_writeF_backed (n : Nat) (s : Store) (p : String) (v : SVal) (k : String)
    (hb : getPermissionsForKey s k = protoPermLookup s k) :
    getPermissionsForKey (writeF n s p v).fst k = getPermissionsForKey s k ∧
    getPermissionsForKey (writeF n s p v).fst k
      = protoPermLookup (writeF n s p v).fst k := by
  by_cases hhead : (splitPath p).headD "" = "permissionsByKey"
  · cases n with
    | zero => exact ⟨rfl, hb⟩
    | succ m =>
      have hpp : protoPermLookup (writeF (m + 1) s p v).fst k = protoPermLookup s k :=
        protoPermLookup_writeF (m + 1) s p v k
      simp only [writeF]
      by_cases hchk : (checkSegsC s (splitPath p) [Permission.w, .rw]).fst = true
      · cases hsp : splitPath p with
        | nil =>
          rw [hsp] at hchk
          simp [hsp, hchk, hb]
        | cons k0 rest =>
          rw [hsp] at hchk
          rw [hsp] at hhead
          simp only [List.headD_cons] at hhead
          subst hhead
          cases rest with
          | nil =>
            simp only [hsp, hchk, if_true]
            by_cases hobj : isObjectType v = true
            · simp only [hobj, if_true]
              cases hgo : writeGo (writeF m) freshStore (entriesOfSVal v) with
              | mk c e =>
                cases e with
                | ok u =>
                  simp only [hchk, if_true]
                  have hsh := pbk_slot_setSlot
                    (defineOp s "permissionsByKey"
                      (getPermissionsForKey s "permissionsByKey")) (Raw.store c)
                  have hg := gpk_shadowed_nonPb _ _ k hsh (fun m2 he => Raw.noConfusion he)
                  rw [hg]
                  have hp2 : protoPermLookup
                      (setSlot (defineOp s "permissionsByKey"
                        (getPermissionsForKey s "permissionsByKey"))
                        "permissionsByKey" (Raw.store c)) k = protoPermLookup s k := by
                    simp [protoPermLookup, protoPerms_setSlot, protoPerms_defineOp]
                  rw [hp2]
                  exact ⟨hb.symm, rfl⟩
                | error w =>
                  simp only [hchk, if_true]
                  have hsh := pbk_slot_defineOp s
                    (getPermissionsForKey s "permissionsByKey")
                  have hg := gpk_shadowed_nonPb _ _ k hsh (fun m2 he => Raw.noConfusion he)
                  rw [hg]
                  have hp2 : protoPermLookup
                      (defineOp s "permissionsByKey"
                        (getPermissionsForKey s "permissionsByKey")) k
                      = protoPermLookup s k := by
                    simp [protoPermLookup, protoPerms_defineOp]
                  rw [hp2]
                  exact ⟨hb.symm, rfl⟩
            · simp only [hobj]
              simp only [hchk, if_true, Bool.false_eq_true, if_false]
              have hnp : ∀ m2, svalAsRaw v ≠ Raw.pbObj m2 := by
                intro m2 he
                cases v <;> simp [isObjectType] at hobj <;> simp [svalAsRaw] at he
              have hsh := pbk_slot_setSlot
                (defineOp s "permissionsByKey"
                  (getPermissionsForKey s "permissionsByKey")) (svalAsRaw v)
              have hg := gpk_shadowed_nonPb _ _ k hsh hnp
              rw [hg]
              have hp2 : protoPermLookup
                  (setSlot (defineOp s "permissionsByKey"
                    (getPermissionsForKey s "permissionsByKey"))
                    "permissionsByKey" (svalAsRaw v)) k = protoPermLookup s k := by
                simp [protoPermLookup, protoPerms_setSlot, protoPerms_defineOp]
              rw [hp2]
              exact ⟨hb.symm, rfl⟩
          | cons h2 t2 =>
            simp only [hsp, hchk, if_true]
            cases hgo : writeF m freshStore (joinCols (h2 :: t2)) v with
            | mk c e =>
              have hsh := pbk_slot_setSlot
                (defineOp s "permissionsByKey"
                  (getPermissionsForKey s "permissionsByKey")) (Raw.store c)
              have hg := gpk_shadowed_nonPb _ _ k hsh (fun m2 he => Raw.noConfusion he)
              have hp2 : protoPermLookup
                  (setSlot (defineOp s "permissionsByKey"
                    (getPermissionsForKey s "permissionsByKey"))
                    "permissionsByKey" (Raw.store c)) k = protoPermLookup s k := by
                simp [protoPermLookup, protoPerms_setSlot, protoPerms_defineOp]
              cases e with
              | ok u =>
                simp only [hchk, if_true]
                rw [hg, hp2]
                exact ⟨hb.symm, rfl⟩
              | error w =>
                simp only [hchk, if_true]
                rw [hg, hp2]
                exact ⟨hb.symm, rfl⟩
      · simp [hchk, hb]
  · refine ⟨gpk_writeF n s p v k hhead, ?_⟩
    rw [gpk_writeF n s p v k hhead, protoPermLookup_writeF n s p v k]
    exact hb

theorem gpk_writeGo_backed (e : List (String × SVal)) (n : Nat) (s : Store) (k : String)
    (hb : getPermissionsForKey s k = protoPermLookup s k) :
    getPermissionsForKey (writeGo (writeF n) s e).fst k = getPermissionsForKey s k ∧
    getPermissionsForKey (writeGo (writeF n) s e).fst k
      = protoPermLookup (writeGo (writeF n) s e).fst k := by
  induction e generalizing s with
  | nil => exact ⟨rfl, hb⟩
  | cons hd tl ih =>
    obtain ⟨hk, hv⟩ := hd
    simp only [writeGo]
    cases hw : writeF n s hk hv with
    | mk s1 r =>
      have hstep := gpk_writeF_backed n s hk hv k hb
      rw [hw] at hstep
      cases r with
      | ok u =>
        obtain ⟨ht, hb2⟩ := ih s1 hstep.2
        exact ⟨ht.trans hstep.1, hb2⟩
      | error w => exact hstep

theorem gpk_applyOp_backed (fuel : Nat) (s : Store) (op : Op) (k : String)
    (hb : getPermissionsForKey s k = protoPermLookup s k) :
    getPermissionsForKey (applyOp fuel s op) k = getPermissionsForKey s k := by
  cases op with
  | readOp p => rfl
  | entriesOp => rfl
  | writeOp p v => exact (gpk_writeF_backed fuel s p v k hb).1
  | writeEntriesOp e => exact (gpk_writeGo_backed e fuel s k hb).1

/-- C8: once a permission list is recorded for a key on a store
instance — by an ahead-of-time declaration, which stores the list in
the class prototype table, or by the first write of the key, whose
`define` copies the then-resolved list (read from the prototype table,
or empty) into the instance map — the list that
`getPermissionsForKey` resolves for the key agrees with the prototype
resolution; that agreement is the hypothesis below, and it holds in
every state those recording mechanisms can produce.  Under it, no
subsequent read, write, writeEntries or entries operation changes the
permission list resolved for the key on that instance: even a write to
the literal key "permissionsByKey", which shadows the instance map
with a slot, leaves the resolution intact, because the resolver then
falls back to the unchanged prototype table.  Only the value stored
under the key may change. -/
theorem c8_perm_fixity (fuel : Nat) (s : Store) (op : Op) (k : String)
    (hb : getPermissionsForKey s k = protoPermLookup s k) :
    getPermissionsForKey (applyOp fuel s op) k = getPermissionsForKey s k :=
  gpk_applyOp_backed fuel s op k hb

theorem c8_perm_fixity_witness :
    alookup "secret" secretStore.permissionsByKey = some [Permission.w] ∧
    getPermissionsForKey secretStore "secret" = [Permission.w] ∧
    getPermissionsForKey secretStore "secret" = protoPermLookup secretStore "secret" ∧
    getPermissionsForKey
        (applyOp 4 secretStore (Op.writeOp "permissionsByKey" (.obj []))) "secret"
      = getPermissionsForKey secretStore "secret" ∧
    getPermissionsForKey (applyOp 4 secretStore (Op.writeOp "other" (.prim (.num 2)))) "secret"
      = getPermissionsForKey secretStore "secret" := by
  refine ⟨rfl, rfl, rfl, ?_, ?_⟩
  · exact c8_perm_fixity 4 secretStore (Op.writeOp "permissionsByKey" (.obj [])) "secret" rfl
  · exact c8_perm_fixity 4 secretStore (Op.writeOp "other" (.prim (.num 2))) "secret" rfl

/-- C6: a `read` of a readable single-segment key whose slot holds a
producer invokes the producer exactly once (the invocation counter is
1), bound to the store the read runs on, and performs no memoization:
the result is the producer output evaluated against the current state
of the store, on every call. -/
theorem c6_producer_read (s : Store) (k : String) (f : ProdExpr)
    (hseg : splitPath k = [k])
    (hslot : alookup k s.slots = some (.fn f))
    (hallow : allowedToRead s k = true) :
    readFn s k = .ok (resolveValue (.fn f) s, 1) := by
  have hc : localCheck s k [Permission.r, .rw] = true := by
    have hx := hallow
    rw [allowedToRead, checkHasPermissionForKey, hseg, checkSegsC_single] at hx
    exact hx
  simp only [readFn, hseg, readSegs, checkSegsC_single, hc, if_true, rawAt, hslot]
  cases f with
  | constP p => simp [resolveValue, resolveValueC]
  | constU => simp [resolveValue, resolveValueC]
  | getPrim k2 =>
    cases halk : alookup k2 s.slots with
    | none => simp [resolveValue, resolveValueC, halk]
    | some r => cases r <;> simp [resolveValue, resolveValueC, halk]

theorem c6_producer_read_witness :
    alookup "k" c6Store.slots = some (.fn (.getPrim "x")) ∧
    readFn c6Store "k" = .ok (.prim (.num 1), 1) ∧
    alookup "k" c6StoreUpd.slots = some (.fn (.getPrim "x")) ∧
    readFn c6StoreUpd "k" = .ok (.prim (.num 2), 1) :=
  ⟨rfl, c6_producer_read c6Store "k" (.getPrim "x") rfl rfl rfl,
   rfl, c6_producer_read c6StoreUpd "k" (.getPrim "x") rfl rfl rfl⟩
/-- C4: writing a primitive to a single-segment key and then reading
that key (with both accesses permitted) returns exactly that
primitive; and on a fresh default store, `write("a:b", 5)` builds the
nested store `abChild`, `read("a:b")` returns 5, `read("a")` returns
the nested store, and the `entries()` of that store carries the pair
`b: 5`. -/
theorem c4_roundtrip (n : Nat) (s s2 : Store) (k : String) (p : Prim) (r : Raw)
    (hseg : splitPath k = [k])
    (hw : writeF (n + 1) s k (.prim p) = (s2, .ok r))
    (hr : allowedToRead s2 k = true) :
    readVal s2 k = .ok (.prim p) ∧
    writeF 4 freshStore "a:b" (.prim (.num 5)) = (abParent, .ok (.store abChild)) ∧
    readVal abParent "a:b" = .ok (.prim (.num 5)) ∧
    readVal abParent "a" = .ok (.store abChild) ∧
    (entriesF 2 abChild).map (fun l => alookup "b" l)
      = some (some (.raw (.prim (.num 5)))) := by
  refine ⟨?_, rfl, rfl, rfl, rfl⟩
  have hr2 : localCheck s2 k [Permission.r, .rw] = true := by
    have hx := hr
    rw [allowedToRead, checkHasPermissionForKey, hseg, checkSegsC_single] at hx
    exact hx
  by_cases hchk : (checkSegsC s (splitPath k) [Permission.w, .rw]).fst = true
  · rw [hseg] at hchk
    simp only [writeF, hseg, hchk, if_true, isObjectType, Bool.false_eq_true, if_false] at hw
    rw [Prod.mk.injEq] at hw
    obtain ⟨h1, h2⟩ := hw
    subst h1
    simp only [setSlot, svalAsRaw] at hr2
    simp [readVal, readFn, hseg, readSegs, checkSegsC_single, hr2, rawAt, setSlot,
      slots_setSlots, alookup_ainsert_self, resolveValueC, svalAsRaw, Except.map]
  · rw [hseg] at hchk
    simp only [writeF, hseg, hchk, Bool.false_eq_true, if_false] at hw
    rw [Prod.mk.injEq] at hw
    cases hw.2
theorem c4_roundtrip_witness :
    allowedToRead (Store.mk .rw [] [] [("x", [])] [("x", .prim (.num 42))]) "x" = true ∧
    readVal (Store.mk .rw [] [] [("x", [])] [("x", .prim (.num 42))]) "x"
      = .ok (.prim (.num 42)) := by
  refine ⟨rfl, ?_⟩
  exact (c4_roundtrip 0 freshStore (Store.mk .rw [] [] [("x", [])] [("x", .prim (.num 42))])
    "x" (.num 42) (.prim (.num 42)) rfl rfl rfl).1

/-- C3 (amended): for a single-segment writable key and a value that
is not object-typed (primitives, undefined, producer functions),
`write` stores the value as-is and returns the raw stored slot
content after the write: for a producer that is the function itself,
not its invocation result. -/
theorem c3_write_returns_raw (n : Nat) (s s2 : Store) (k : String) (v : SVal)
    (ret : Except WErr Raw)
    (hseg : splitPath k = [k])
    (hobj : isObjectType v = false)
    (hallow : allowedToWrite s k = true)
    (hw : writeF (n + 1) s k v = (s2, ret)) :
    rawAt s2 k = svalAsRaw v ∧ ret = .ok (svalAsRaw v) := by
  have hchk : (checkSegsC s [k] [Permission.w, .rw]).fst = true := by
    have hx := hallow
    rw [allowedToWrite, checkHasPermissionForKey, hseg] at hx
    exact hx
  simp only [writeF, hseg, hchk, if_true, hobj, Bool.false_eq_true, if_false] at hw
  rw [Prod.mk.injEq] at hw
  obtain ⟨h1, h2⟩ := hw
  subst h1
  refine ⟨?_, h2.symm⟩
  simp [rawAt, setSlot, slots_setSlots, alookup_ainsert_self]

theorem c3_write_returns_raw_witness :
    isObjectType (SVal.fn (.constP (.num 7))) = false ∧
    allowedToWrite freshStore "k" = true ∧
    rawAt (writeF 2 freshStore "k" (.fn (.constP (.num 7)))).fst "k"
      = .fn (.constP (.num 7)) ∧
    (writeF 2 freshStore "k" (.fn (.constP (.num 7)))).snd = .ok (.fn (.constP (.num 7))) := by
  refine ⟨rfl, rfl, ?_, ?_⟩
  · exact (c3_write_returns_raw 1 freshStore (writeF 2 freshStore "k" (.fn (.constP (.num 7)))).fst
      "k" (.fn (.constP (.num 7))) (writeF 2 freshStore "k" (.fn (.constP (.num 7)))).snd
      rfl rfl rfl rfl).1
  · exact (c3_write_returns_raw 1 freshStore (writeF 2 freshStore "k" (.fn (.constP (.num 7)))).fst
      "k" (.fn (.constP (.num 7))) (writeF 2 freshStore "k" (.fn (.constP (.num 7)))).snd
      rfl rfl rfl rfl).2

/-- C3 counterexample: writing the producer `() => 7` at "k" on a
fresh store returns the producer function itself, while the resolved
current value of the slot after the write is the producer result 7;
the two differ, so `write` does not return the resolved value. -/
theorem c3_write_return_cex :
    (writeF 2 freshStore "k" (.fn (.constP (.num 7)))).snd = .ok (.fn (.constP (.num 7))) ∧
    resolveValue (.fn (.constP (.num 7)))
        (writeF 2 freshStore "k" (.fn (.constP (.num 7)))).fst = .prim (.num 7) ∧
    (Except.ok (Raw.fn (.constP (.num 7))) : Except WErr Raw) ≠ .ok (.prim (.num 7)) := by
  refine ⟨rfl, rfl, ?_⟩
  intro h
  injection h with h1
  exact Raw.noConfusion h1

/-- C1: the code does not special-case arrays: `write("k", [10, 20])`
on a fresh store takes the structured-object branch, so the slot
content after the write is a brand-new nested store bulk-populated
with the index entries "0" and "1" of the array — not the array itself
stored as an opaque leaf. -/
theorem c1_array_expanded :
    writeF 4 freshStore "k" (.arr [.prim (.num 10), .prim (.num 20)])
      = (.mk .rw [] [] [("k", [])] [("k", .store c1Child)], .ok (.store c1Child)) ∧
    rawAt (writeF 4 freshStore "k" (.arr [.prim (.num 10), .prim (.num 20)])).fst "k"
      = .store c1Child ∧
    alookup "0" c1Child.slots = some (.prim (.num 10)) ∧
    alookup "1" c1Child.slots = some (.prim (.num 20)) :=
  ⟨rfl, rfl, rfl, rfl⟩

/-- C9: the two source variants are not equivalent navigators.  After
the same single write of 5 at the path "a:b" to a fresh default store
of each variant, the richer variant reads 5 back at "a:b" while the
simpler variant observes `undefined`; the richer variant auto-created
an intermediate store at "a" and truncates reads past non-store
leaves, while the simpler variant treats the whole path as one flat
key. -/
theorem c9_variants_diverge :
    obsOfRead (readVal (writeF 4 freshStore "a:b" (.prim (.num 5))).fst "a:b")
      = .oNum 5 ∧
    obsOfSRead (sRead (sWrite sFresh "a:b" (.prim (.num 5))).fst "a:b") = .oUndefined ∧
    Obs.oNum 5 ≠ Obs.oUndefined ∧
    obsOfRead (readVal (writeF 4 freshStore "a:b" (.prim (.num 5))).fst "a") = .oStoreRef ∧
    readVal (writeF 4 freshStore "x" (.prim (.num 1))).fst "x:y" = .ok (.prim (.num 1)) ∧
    obsOfSRead (sRead (sWrite sFresh "a:b" (.prim (.num 5))).fst "a") = .oUndefined := by
  refine ⟨rfl, rfl, ?_, rfl, rfl, rfl⟩
  decide
